import Mathlib

/-!
Verification of the segment-extraction / batch-translation / post-translation-repair
pipeline of davidgs/Translator (translate.go).

The Go code is shallowly embedded over lists of characters.  Go strings become
List Char, Go regular expressions become explicit scanning functions that
reproduce the leftmost, non-overlapping, greedy matching behaviour of the six
compiled patterns, Go panics become Option.none, and the opaque Google
translation call becomes a function parameter of type
List (List Char) -> Except TrErr (List (List Char)).

Scanning recursions take an explicit fuel argument so that every definition is
structurally recursive and evaluates inside the kernel; every call site passes
the length of the scanned list, which is always sufficient because each step
consumes at least one character.
-/

namespace Translator

/-- The Go unicode.IsSpace predicate used by strings.TrimSpace, restricted to
the Latin-1 range (the only characters the documents in question contain). -/
def isSpaceGo (c : Char) : Bool :=
  decide (c = ' ' ∨ c = '\t' ∨ c = '\n' ∨ c = '\x0b' ∨ c = '\x0c' ∨ c = '\r'
    ∨ c.toNat = 0x85 ∨ c.toNat = 0xA0)

/-- strings.TrimSpace. -/
def trimGo (l : List Char) : List Char :=
  ((l.dropWhile isSpaceGo).reverse.dropWhile isSpaceGo).reverse

/-- The character class of the urlExtract pattern. -/
def isUrlChar (c : Char) : Bool :=
  decide (('a' ≤ c ∧ c ≤ 'z') ∨ ('A' ≤ c ∧ c ≤ 'Z') ∨ ('0' ≤ c ∧ c ≤ '9')
    ∨ c ∈ ['-', '@', ':', '%', '.', '_', '+', '~', '#', '=', '/'])

/-- The character class of the urlReplace pattern: the urlExtract class plus a space. -/
def isUrlSpaceChar (c : Char) : Bool :=
  isUrlChar c || c = ' '

/-- The word class of the emphasis patterns.  The Go source writes the class
with the range A-z, which also covers the six punctuation code points between
Z and a; this is reproduced faithfully. -/
def isWordChar (c : Char) : Bool :=
  decide (('A' ≤ c ∧ c ≤ 'z') ∨ ('a' ≤ c ∧ c ≤ 'z') ∨ ('0' ≤ c ∧ c ≤ '9'))

/-- Generic replace-all scan: at each position try the matcher; on a match of
length n emit the replacement and resume after the match, otherwise keep the
character.  This is the semantics of Regexp.ReplaceAll and strings.ReplaceAll
for the patterns embedded here (all their matches are non-empty). -/
def scanReplace (f : List Char → Option (Nat × List Char)) : Nat → List Char → List Char
  | 0, l => l
  | _ + 1, [] => []
  | fuel + 1, c :: cs =>
    match f (c :: cs) with
    | some (n, repl) => repl ++ scanReplace f fuel (cs.drop (n - 1))
    | none => c :: scanReplace f fuel cs

/-- Generic find-all scan collecting the matched substrings, leftmost and
non-overlapping, the semantics of Regexp.FindAll. -/
def findAllAux (f : List Char → Option Nat) : Nat → List Char → List (List Char)
  | 0, _ => []
  | _ + 1, [] => []
  | fuel + 1, c :: cs =>
    match f (c :: cs) with
    | some n => (c :: cs).take n :: findAllAux f fuel (cs.drop (n - 1))
    | none => findAllAux f fuel cs

/-- Whether the matcher fires at some suffix of the list. -/
def hasMatchO {α : Type} (f : List Char → Option α) : List Char → Bool
  | [] => false
  | c :: cs => (f (c :: cs)).isSome || hasMatchO f cs

/-- Matcher for the urlExtract pattern: a right bracket, an open parenthesis,
one to 256 url characters, a close parenthesis.  Returns the match length.
Greedy matching of the class run followed by the mandatory close parenthesis
is equivalent to taking the maximal class run and testing the next character,
because the close parenthesis is not in the class. -/
def urlMatchLen (l : List Char) : Option Nat :=
  match l with
  | ']' :: '(' :: rest =>
    let n := (rest.takeWhile isUrlChar).length
    if 1 ≤ n ∧ n ≤ 256 then
      match rest.drop n with
      | ')' :: _ => some (n + 3)
      | _ => none
    else none
  | _ => none

/-- Matcher for the urlReplace pattern: a right bracket, a space, an open
parenthesis, one to 256 url-or-space characters, a close parenthesis. -/
def urlDamagedLen (l : List Char) : Option Nat :=
  match l with
  | ']' :: ' ' :: '(' :: rest =>
    let n := (rest.takeWhile isUrlSpaceChar).length
    if 1 ≤ n ∧ n ≤ 256 then
      match rest.drop n with
      | ')' :: _ => some (n + 4)
      | _ => none
    else none
  | _ => none

/-- Matcher and replacement for the boldFix pattern: space, two stars, space,
a word, space, two stars, rewritten keeping the leading space. -/
def boldMatch (l : List Char) : Option (Nat × List Char) :=
  match l with
  | ' ' :: '*' :: '*' :: ' ' :: rest =>
    let w := rest.takeWhile isWordChar
    if 1 ≤ w.length then
      match rest.drop w.length with
      | ' ' :: '*' :: '*' :: _ =>
        some (w.length + 7, ' ' :: '*' :: '*' :: (w ++ ['*', '*']))
      | _ => none
    else none
  | _ => none

/-- Matcher and replacement for the underlineFix pattern: space, star, space,
a word, space, star, rewritten dropping the leading space. -/
def italicMatch (l : List Char) : Option (Nat × List Char) :=
  match l with
  | ' ' :: '*' :: ' ' :: rest =>
    let w := rest.takeWhile isWordChar
    if 1 ≤ w.length then
      match rest.drop w.length with
      | ' ' :: '*' :: _ => some (w.length + 5, '*' :: (w ++ ['*']))
      | _ => none
    else none
  | _ => none

/-- Matcher and replacement for the videoShortcode pattern: double brace,
angle, one to three spaces, video in either capitalisation, normalised to the
canonical token. -/
def videoMatch (l : List Char) : Option (Nat × List Char) :=
  match l with
  | '\x7b' :: '\x7b' :: '<' :: rest =>
    let s := (rest.takeWhile (fun c => c = ' ')).length
    if 1 ≤ s ∧ s ≤ 3 then
      match rest.drop s with
      | 'v' :: 'i' :: 'd' :: 'e' :: 'o' :: _ => some (s + 8, "\x7b\x7b< video".data)
      | 'V' :: 'i' :: 'd' :: 'e' :: 'o' :: _ => some (s + 8, "\x7b\x7b< video".data)
      | _ => none
    else none
  | _ => none

/-- Matcher and replacement for the youtubeShortcode pattern. -/
def youtubeMatch (l : List Char) : Option (Nat × List Char) :=
  match l with
  | '\x7b' :: '\x7b' :: '<' :: rest =>
    let s := (rest.takeWhile (fun c => c = ' ')).length
    if 1 ≤ s ∧ s ≤ 3 then
      match rest.drop s with
      | 'y' :: 'o' :: 'u' :: 't' :: 'u' :: 'b' :: 'e' :: _ =>
        some (s + 10, "\x7b\x7b< youtube".data)
      | 'Y' :: 'o' :: 'u' :: 't' :: 'u' :: 'b' :: 'e' :: _ =>
        some (s + 10, "\x7b\x7b< youtube".data)
      | _ => none
    else none
  | _ => none

/-- Literal-string matcher, the semantics of strings.ReplaceAll. -/
def litMatch (pat repl : List Char) (l : List Char) : Option (Nat × List Char) :=
  if pat ≠ [] ∧ pat.isPrefixOf l then some (pat.length, repl) else none

/-- Find the first (leftmost) occurrence of the urlReplace pattern and split
the list into the part before the match, the match, and the part after it.
This is the semantics of Regexp.FindIndex plus the slicing done at its result. -/
def findDamagedSplit : List Char → Option (List Char × List Char × List Char)
  | [] => none
  | c :: cs =>
    match urlDamagedLen (c :: cs) with
    | some n => some ([], (c :: cs).take n, (c :: cs).drop n)
    | none =>
      match findDamagedSplit cs with
      | some (pre, m, suf) => some (c :: pre, m, suf)
      | none => none

/-- The URL-restoration loop of applyPostTranslationFixes: for each extracted
original URL, find the first remaining damaged link in the fixed text and
splice the prefix up to and including the right bracket, an open parenthesis,
the original URL text after its two leading characters, and the suffix after
the damaged match.  A missing damaged occurrence stops the whole loop. -/
def restoreLoop : List (List Char) → List Char → List Char
  | [], fixed => fixed
  | u :: us, fixed =>
    match findDamagedSplit fixed with
    | none => fixed
    | some (pre, _, suf) => restoreLoop us (pre ++ ']' :: '(' :: (u.drop 2 ++ suf))

/-- Stage 1 of the fix pipeline: the boldFix rewrite. -/
def boldStage (l : List Char) : List Char := scanReplace boldMatch l.length l

/-- The HTML entity table of the Translator, as the ordered list of
replacements.  The Go code ranges over a four-entry map whose iteration order
is unspecified; the four replacements act on disjoint occurrences and none
creates an occurrence of another, so any fixed order gives the map semantics. -/
def entityList : List (List Char × List Char) :=
  [("&quot;".data, "\"".data), ("&gt;".data, ">".data),
   ("&lt;".data, "<".data), ("&#39;".data, "'".data)]

/-- Stage 2: HTML entity unescaping. -/
def entityStage (l : List Char) : List Char :=
  entityList.foldl (fun acc p => scanReplace (litMatch p.1 p.2) acc.length acc) l

/-- Stage 3: the underlineFix rewrite. -/
def italicStage (l : List Char) : List Char := scanReplace italicMatch l.length l

/-- Stage 4: the videoShortcode rewrite. -/
def videoStage (l : List Char) : List Char := scanReplace videoMatch l.length l

/-- Stage 5: the youtubeShortcode rewrite. -/
def youtubeStage (l : List Char) : List Char := scanReplace youtubeMatch l.length l

/-- applyPostTranslationFixes on character lists: extract the original URLs,
run the five rewrite stages on the translated text in the order of the Go
source, then run the URL-restoration loop. -/
def applyFixesL (orig trans : List Char) : List Char :=
  restoreLoop (findAllAux urlMatchLen orig.length orig)
    (youtubeStage (videoStage (italicStage (entityStage (boldStage trans)))))

/-- applyPostTranslationFixes of the Go source. -/
def applyPostTranslationFixes (originalText translatedText : String) : String :=
  ⟨applyFixesL originalText.data translatedText.data⟩

/-- A matcher is benign on a list when every match it produces at any suffix
is non-empty and replaced by exactly the matched text, so that rewriting it
leaves the list unchanged. -/
def benignB (f : List Char → Option (Nat × List Char)) (l : List Char) : Bool :=
  l.tails.all fun s =>
    match f s with
    | some (n, r) => decide (1 ≤ n) && decide (r = s.take n)
    | none => true

/-- strings.HasPrefix restricted to a single-character needle. -/
def startsWithCh (c : Char) : List Char → Bool
  | [] => false
  | x :: _ => x = c

/-- strings.HasSuffix restricted to a single-character needle. -/
def endsWithCh (c : Char) (l : List Char) : Bool :=
  l.getLast? = some c

/-- The two ReplaceAll calls of the double-quote branch of unquoteYAML:
backslash-quote becomes quote, then double backslash becomes backslash. -/
def unescapeDQ (l : List Char) : List Char :=
  let s1 := scanReplace (litMatch ['\\', '"'] ['"']) l.length l
  scanReplace (litMatch ['\\', '\\'] ['\\']) s1.length s1

/-- unquoteYAML of the Go source.  The Go code slices value from index 1 to
length minus 1 after testing HasPrefix and HasSuffix separately; on the
one-character inputs consisting of a lone double or single quote both tests
pass and the slice bounds are 1 and 0, which panics.  The panic is modelled
as Option.none. -/
def unquoteYAML (l : List Char) : Option (List Char) :=
  if startsWithCh '"' l && endsWithCh '"' l then
    if 2 ≤ l.length then some (unescapeDQ ((l.drop 1).dropLast)) else none
  else if startsWithCh '\'' l && endsWithCh '\'' l then
    if 2 ≤ l.length then some ((l.drop 1).dropLast) else none
  else some l

/-- The carriage-return stripping of bufio.ScanLines. -/
def dropCR (l : List Char) : List Char :=
  if l.getLast? = some '\r' then l.dropLast else l

/-- Accumulating pass of the line splitter.  The first argument holds the
current line read so far, in reverse. -/
def splitAux : List Char → List Char → List (List Char)
  | cur, [] => [dropCR cur.reverse]
  | cur, c :: cs =>
    if c = '\n' then
      dropCR cur.reverse :: (if cs.isEmpty then [] else splitAux [] cs)
    else splitAux (c :: cur) cs

/-- The line sequence a bufio.Scanner with ScanLines yields on the input:
split at every newline, strip one carriage return before each newline, emit a
final unterminated line, and no trailing empty line after a final newline. -/
def splitLinesGo (l : List Char) : List (List Char) :=
  match l with
  | [] => []
  | _ => splitAux [] l

/-- The role tag of a segment, the lineType strings of the Go source. -/
inductive LineType where
  | literal
  | text
  | title
  | description
  | alt
deriving DecidableEq, Repr

/-- The segment record of doXlate. -/
structure Segment where
  index : Nat
  text : List Char
  lineType : LineType
  original : List Char
deriving DecidableEq, Repr

/-- A literal (pass-through) segment for a line; doXlate always stores the
line plus a newline as its original and leaves the text empty. -/
def litSeg (idx : Nat) (ln : List Char) : Segment :=
  ⟨idx, [], LineType.literal, ln ++ ['\n']⟩

/-- strings.SplitN with separator colon and count 2, as the optional pair of
the text before the first colon and the text after it. -/
def splitFirstColon : List Char → Option (List Char × List Char)
  | [] => none
  | c :: cs =>
    if c = ':' then some ([], cs)
    else
      match splitFirstColon cs with
      | some (a, b) => some (c :: a, b)
      | none => none

/-- strings.Split with a single-character separator. -/
def splitOnChar (sep : Char) : List Char → List (List Char)
  | [] => [[]]
  | c :: cs =>
    let r := splitOnChar sep cs
    if c = sep then [] :: r
    else
      match r with
      | h :: t => (c :: h) :: t
      | [] => [[c]]

/-- The body branch of the classification loop (line outside front matter):
image lines yield an alt segment from the text between the first left bracket
and what precedes the first right bracket, callout markers and blank lines are
literal, anything else is a body-text segment. -/
def bodyStep (ln : List Char) (idx : Nat) (head code : Bool) :
    Option (Segment × Bool × Bool) :=
  if "!".data.isPrefixOf ln then
    let bar := splitOnChar ']' ln
    if bar.length > 0 then
      let desc := splitOnChar '[' (bar.headD [])
      if desc.length > 1 then some (⟨idx, desc.getD 1 [], LineType.alt, ln⟩, head, code)
      else some (litSeg idx ln, head, code)
    else some (litSeg idx ln, head, code)
  else if "> [!".data.isPrefixOf ln then some (litSeg idx ln, head, code)
  else if ln = [] then some (litSeg idx ln, head, code)
  else some (⟨idx, ln, LineType.text, ln⟩, head, code)

/-- The front-matter branch of the classification loop: split on the first
colon; title and description values are trimmed and unquoted (which can
panic, propagated as none); other keys and colon-free lines are literal. -/
def frontStep (ln : List Char) (idx : Nat) (head code : Bool) :
    Option (Segment × Bool × Bool) :=
  match splitFirstColon ln with
  | some (key, value) =>
    if key = "title".data then
      match unquoteYAML (trimGo value) with
      | none => none
      | some v => some (⟨idx, v, LineType.title, ln⟩, head, code)
    else if key = "description".data then
      match unquoteYAML (trimGo value) with
      | none => none
      | some v => some (⟨idx, v, LineType.description, ln⟩, head, code)
    else some (litSeg idx ln, head, code)
  | none => some (litSeg idx ln, head, code)

/-- One iteration of the scanning loop of doXlate: classify the line using
the two state booleans and produce the segment plus the updated state, in the
exact test order of the Go source. -/
def classifyStep (ln : List Char) (head code : Bool) (idx : Nat) :
    Option (Segment × Bool × Bool) :=
  if "\x7b\x7b".data.isPrefixOf ln then some (litSeg idx ln, head, code)
  else if "```".data.isPrefixOf ln then some (litSeg idx ln, head, !code)
  else if code then some (litSeg idx ln, head, code)
  else if ln = "---".data then some (litSeg idx ln, !head, code)
  else if !head then bodyStep ln idx head code
  else frontStep ln idx head code

/-- The scanning loop of doXlate over all lines, threading the front-matter
and code-fence state and the running segment index. -/
def classifyLines : List (List Char) → Bool → Bool → Nat → Option (List Segment)
  | [], _, _, _ => some []
  | ln :: rest, head, code, idx =>
    match classifyStep ln head code idx with
    | none => none
    | some (seg, h, c) =>
      match classifyLines rest h c (idx + 1) with
      | none => none
      | some segs => some (seg :: segs)

/-- Segment extraction as doXlate performs it, starting outside front matter
and outside any code fence. -/
def extractSegsP (lines : List (List Char)) : Option (List Segment) :=
  classifyLines lines false false 0

/-- Error cases of the batch translation adapter. -/
inductive TrErr where
  | badLanguage
  | provider
  | lengthMismatch
deriving DecidableEq, Repr

/-- The filtering pass of translateBatch: keep the texts whose trimmed form
is non-empty, paired with their original positions. -/
def filterPairs (texts : List (List Char)) : List (Nat × List Char) :=
  texts.enum.filter fun p => decide (trimGo p.2 ≠ [])

/-- The write-back loop of translateBatch for one batch.  For the i-th
position of the batch with original index respIdx, the response text at i is
stored at respIdx — but only under the guard batchStart plus i less than the
response length, copied verbatim from the Go source; for every batch after
the first the guard is never true, so those results are never stored. -/
def mapBack (batchStart : Nat) : Nat → List Nat → List (List Char) → List (List Char) →
    List (List Char)
  | _, [], _, acc => acc
  | i, respIdx :: idxs, resp, acc =>
    let acc' :=
      if batchStart + i < resp.length then
        match resp[i]? with
        | some t => acc.set respIdx t
        | none => acc
      else acc
    mapBack batchStart (i + 1) idxs resp acc'

/-- The chunked translation loop of translateBatch: take up to ten texts,
call the provider once, fail on a provider error or a response length that
differs from the request length, otherwise write the batch back and continue.
The fuel argument only bounds the recursion; each step consumes at least one
element, so the length of the remaining list is always sufficient fuel, and
an exhausted fuel simply returns the accumulator (unreachable at call sites). -/
def processBatches (prov : List (List Char) → Except TrErr (List (List Char))) :
    Nat → List (Nat × List Char) → Nat → List (List Char) →
    Except TrErr (List (List Char))
  | 0, _, _, acc => Except.ok acc
  | _ + 1, [], _, acc => Except.ok acc
  | fuel + 1, rem@(_ :: _), batchStart, acc =>
    let batch := rem.take 10
    let batchTexts := batch.map Prod.snd
    match prov batchTexts with
    | Except.error e => Except.error e
    | Except.ok resp =>
      if resp.length ≠ batchTexts.length then Except.error TrErr.lengthMismatch
      else
        processBatches prov fuel (rem.drop 10) (batchStart + 10)
          (mapBack batchStart 0 (batch.map Prod.fst) resp acc)

/-- translateBatch of the Go source.  The target language is abstracted to
whether language.Parse succeeds (langOk) and the network call to an opaque
per-batch provider function. -/
def translateBatch (langOk : Bool)
    (prov : List (List Char) → Except TrErr (List (List Char)))
    (texts : List (List Char)) : Except TrErr (List (List Char)) :=
  if texts.length = 0 then Except.ok []
  else
    let filtered := filterPairs texts
    if filtered.length = 0 then Except.ok (List.replicate texts.length [])
    else if !langOk then Except.error TrErr.badLanguage
    else processBatches prov filtered.length filtered 0 (List.replicate texts.length [])

/-- The chunking of a list into consecutive groups of ten, fuel-bounded like
the loop itself; these are exactly the requests processBatches sends. -/
def chunks10 {α : Type} : Nat → List α → List (List α)
  | 0, _ => []
  | _ + 1, [] => []
  | fuel + 1, l@(_ :: _) => l.take 10 :: chunks10 fuel (l.drop 10)

/-- The batches of texts translateBatch sends to the provider for an input. -/
def sentBatches (texts : List (List Char)) : List (List (List Char)) :=
  (chunks10 (filterPairs texts).length (filterPairs texts)).map fun b => b.map Prod.snd

/-- Whether the provider fails on a batch: an error, or a response whose
length differs from the request. -/
def isBadResp (prov : List (List Char) → Except TrErr (List (List Char)))
    (batch : List (List Char)) : Bool :=
  match prov batch with
  | Except.error _ => true
  | Except.ok resp => decide (resp.length ≠ batch.length)

/-- Error cases of a whole document translation. -/
inductive XErr where
  | batchFailed (e : TrErr)
  | countMismatch
  | missingTranslation (i : Nat)
deriving DecidableEq, Repr

/-- The collection pass of doXlate over the segment list: the texts whose
trimmed form is non-empty, paired with their positions in the segment list. -/
def collectTexts : List Segment → Nat → List (List Char × Nat)
  | [], _ => []
  | s :: rest, i =>
    if decide (trimGo s.text ≠ []) then (s.text, i) :: collectTexts rest (i + 1)
    else collectTexts rest (i + 1)

/-- The translation map of doXlate: from the collected segment positions
zipped against the received translations. -/
def tmapOf (idxs : List Nat) (trs : List (List Char)) : Nat → Option (List Char) :=
  fun i => (idxs.zip trs).lookup i

/-- The output step of doXlate for one segment at position i: literals are
emitted verbatim, blank translatable segments fall back to their original
line (newline-terminated), and translated segments are repaired and formatted
by role.  Alt lines are rebuilt from the piece of the original line between
the first and second right bracket, as strings.Split produces it. -/
def emitSeg (i : Nat) (seg : Segment) (tmap : Nat → Option (List Char)) :
    Except XErr (List Char) :=
  if seg.lineType = LineType.literal then Except.ok seg.original
  else if trimGo seg.text = [] then
    Except.ok (seg.original ++ if seg.original.getLast? = some '\n' then [] else ['\n'])
  else
    match tmap i with
    | none => Except.error (XErr.missingTranslation i)
    | some tr =>
      let fixed := applyFixesL seg.text tr
      match seg.lineType with
      | LineType.title => Except.ok ("title: ".data ++ fixed ++ ['\n'])
      | LineType.description => Except.ok ("description: ".data ++ fixed ++ ['\n'])
      | LineType.alt =>
        let bar := splitOnChar ']' seg.original
        if bar.length > 1 then
          Except.ok ("![".data ++ fixed ++ ']' :: (bar.getD 1 [] ++ ['\n']))
        else Except.ok (seg.original ++ ['\n'])
      | LineType.text => Except.ok (fixed ++ ['\n'])
      | LineType.literal => Except.ok seg.original

/-- The output loop of doXlate: emit every segment in order, aborting on the
first error, and concatenate the pieces as the string builder does. -/
def buildSegs (tmap : Nat → Option (List Char)) : List Segment → Nat →
    Except XErr (List Char)
  | [], _ => Except.ok []
  | seg :: rest, i =>
    match emitSeg i seg tmap with
    | Except.error e => Except.error e
    | Except.ok piece =>
      match buildSegs tmap rest (i + 1) with
      | Except.error e => Except.error e
      | Except.ok out => Except.ok (piece ++ out)

/-- The translation and reassembly part of doXlate on an extracted segment
list: collect the translatable texts, batch-translate them when there are
any, fail on a batch error or a count mismatch, and build the output. -/
def doXlateSegs (langOk : Bool)
    (prov : List (List Char) → Except TrErr (List (List Char)))
    (segs : List Segment) : Except XErr (List Char) :=
  let tl := collectTexts segs 0
  let texts := tl.map Prod.fst
  let idxs := tl.map Prod.snd
  if 0 < texts.length then
    match translateBatch langOk prov texts with
    | Except.error e => Except.error (XErr.batchFailed e)
    | Except.ok translations =>
      if translations.length ≠ texts.length then Except.error XErr.countMismatch
      else buildSegs (tmapOf idxs translations) segs 0
  else buildSegs (tmapOf idxs []) segs 0

/-- The in-memory part of doXlate on an already split line list: extract the
segments (propagating the unquote panic as none) and run translation and
reassembly.  File input and output errors are the only unmodelled paths. -/
def doXlateCore (langOk : Bool)
    (prov : List (List Char) → Except TrErr (List (List Char)))
    (lines : List (List Char)) : Option (Except XErr (List Char)) :=
  match extractSegsP lines with
  | none => none
  | some segs => some (doXlateSegs langOk prov segs)

/-- doXlate on a whole input string, using the bufio line splitting. -/
def doXlateCoreStr (langOk : Bool)
    (prov : List (List Char) → Except TrErr (List (List Char)))
    (input : String) : Option (Except XErr (List Char)) :=
  doXlateCore langOk prov (splitLinesGo input.data)

/-- doXlate including its effect on the output file.  os.Create truncates or
creates the output file before any processing, so the file content is the
empty string from that point on; it becomes the built output only when every
step succeeded and the final write runs.  The first component is the returned
error value (none standing for a panic), the second the final output-file
content (none standing for no file). -/
def doXlateFS (langOk : Bool)
    (prov : List (List Char) → Except TrErr (List (List Char)))
    (input : String) : Option (Except XErr Unit) × Option (List Char) :=
  match doXlateCoreStr langOk prov input with
  | none => (none, some [])
  | some (Except.error e) => (some (Except.error e), some [])
  | some (Except.ok out) => (some (Except.ok ()), some out)

/-- A provider that translates every text by prefixing a marker character;
used to exhibit concrete behaviour. -/
def provT : List (List Char) → Except TrErr (List (List Char)) :=
  fun b => Except.ok (b.map fun s => 'T' :: s)

/-- A provider that always fails. -/
def provFail : List (List Char) → Except TrErr (List (List Char)) :=
  fun _ => Except.error TrErr.provider

/-- Eleven one-character texts, none blank: enough for two batches. -/
def texts11 : List (List Char) :=
  [['a'], ['b'], ['c'], ['d'], ['e'], ['f'], ['g'], ['h'], ['i'], ['j'], ['k']]

/-- The suffix of a line after its first right bracket. -/
def afterFirstRB (l : List Char) : List Char :=
  (l.dropWhile fun c => c ≠ ']').tail

/-- The piece of a line strictly between its first and second right bracket. -/
def betweenRB (l : List Char) : List Char :=
  (afterFirstRB l).takeWhile fun c => c ≠ ']'

/-- Concatenation of a list of character lists. -/
def concatL (ls : List (List Char)) : List Char :=
  ls.foldr (fun a b => a ++ b) []

/-! ## Lemmas about the generic scanners -/

theorem scanReplace_id (f : List Char → Option (Nat × List Char)) :
    ∀ l : List Char, hasMatchO f l = false → ∀ fuel, scanReplace f fuel l = l := by
  intro l
  induction l with
  | nil => intro _ fuel; cases fuel <;> rfl
  | cons c cs ih =>
    intro h fuel
    have h1 : f (c :: cs) = none := by
      cases hf : f (c :: cs) with
      | none => rfl
      | some v => rw [hasMatchO, hf] at h; simp at h
    have h2 : hasMatchO f cs = false := by
      rw [hasMatchO, h1] at h; simpa using h
    cases fuel with
    | zero => rfl
    | succ n => simp [scanReplace, h1, ih h2 n]

theorem findAllAux_nil (f : List Char → Option Nat) :
    ∀ l : List Char, hasMatchO f l = false → ∀ fuel, findAllAux f fuel l = [] := by
  intro l
  induction l with
  | nil => intro _ fuel; cases fuel <;> rfl
  | cons c cs ih =>
    intro h fuel
    have h1 : f (c :: cs) = none := by
      cases hf : f (c :: cs) with
      | none => rfl
      | some v => rw [hasMatchO, hf] at h; simp at h
    have h2 : hasMatchO f cs = false := by
      rw [hasMatchO, h1] at h; simpa using h
    cases fuel with
    | zero => rfl
    | succ n => simp [findAllAux, h1, ih h2 n]

theorem benignB_suffix (f : List Char → Option (Nat × List Char)) (l s : List Char)
    (h : benignB f l = true) (hs : s <:+ l) : benignB f s = true := by
  simp only [benignB, List.all_eq_true, List.mem_tails] at h ⊢
  intro t ht
  exact h t (ht.trans hs)

theorem benignB_head (f : List Char → Option (Nat × List Char)) (l : List Char)
    (h : benignB f l = true) :
    ∀ n r, f l = some (n, r) → 1 ≤ n ∧ r = l.take n := by
  simp only [benignB, List.all_eq_true, List.mem_tails] at h
  intro n r hf
  have hl := h l (List.suffix_refl l)
  rw [hf] at hl
  simpa using hl

theorem scanReplace_benign (f : List Char → Option (Nat × List Char)) :
    ∀ fuel l, benignB f l = true → scanReplace f fuel l = l := by
  intro fuel
  induction fuel with
  | zero => intro l _; rfl
  | succ m ih =>
    intro l h
    cases l with
    | nil => rfl
    | cons c cs =>
      cases hf : f (c :: cs) with
      | none =>
        have hcs : benignB f cs = true :=
          benignB_suffix f _ _ h (List.suffix_cons c cs)
        simp [scanReplace, hf, ih cs hcs]
      | some v =>
        obtain ⟨n, r⟩ := v
        obtain ⟨hn, hr⟩ := benignB_head f _ h n r hf
        obtain ⟨k, rfl⟩ : ∃ k, n = k + 1 := ⟨n - 1, by omega⟩
        have hsuf : benignB f (cs.drop k) = true := by
          have : cs.drop k = (c :: cs).drop (k + 1) := rfl
          rw [this]
          exact benignB_suffix f _ _ h (List.drop_suffix _ _)
        simp only [scanReplace, hf, Nat.add_sub_cancel]
        rw [ih _ hsuf, hr]
        have : (c :: cs).drop (k + 1) = cs.drop k := rfl
        rw [← this, List.take_append_drop]

/-! ## Claims about the repair engine -/

/-- C3: on the original text containing the single markdown link to
example.com/path and the translated text in which the translator inserted a
space after the right bracket and translated the path, the repair function
removes the inserted space and substitutes the original URL verbatim. -/
theorem repair_restores_single_url :
    applyPostTranslationFixes "Check [this link](https://example.com/path)"
      "Vérifiez [ce lien] (https://example.com/chemin)"
      = "Vérifiez [ce lien](https://example.com/path)" := rfl

/-- C4 counterexample: on the translated text consisting of a spaced italic
marker pair with a trailing space, the repair function keeps the trailing
space, so the output is not the claimed string without it. -/
theorem repair_italic_trailing_space :
    applyPostTranslationFixes "" " * italic * " ≠ "*italic*" := by decide

/-- C4 (amended): for any original text without markdown links, the repair
function rewrites the spaced bold sample keeping the leading and trailing
spaces, and rewrites the spaced italic sample dropping the leading space but
keeping the trailing one. -/
theorem repair_emphasis_respacing (x : String)
    (hx : hasMatchO urlMatchLen x.data = false) :
    applyPostTranslationFixes x " ** bold ** " = " **bold** " ∧
    applyPostTranslationFixes x " * italic * " = "*italic* " := by
  constructor <;>
  · show String.mk (applyFixesL x.data _) = _
    unfold applyFixesL
    rw [findAllAux_nil urlMatchLen x.data hx]
    rfl

/-- C4 witness at the empty original text. -/
theorem repair_emphasis_respacing_witness :
    applyPostTranslationFixes "" " ** bold ** " = " **bold** " ∧
    applyPostTranslationFixes "" " * italic * " = "*italic* " :=
  repair_emphasis_respacing "" (by decide)

/-- C5: the repair function is the identity when the original text has no
markdown-link occurrence and the translated text has no HTML entity
occurrence, no spaced bold or italic marker occurrence, and every video or
youtube shortcode occurrence is already in canonical form. -/
theorem repair_identity_on_clean (x y : String)
    (hx : hasMatchO urlMatchLen x.data = false)
    (hq : hasMatchO (litMatch "&quot;".data "\"".data) y.data = false)
    (hg : hasMatchO (litMatch "&gt;".data ">".data) y.data = false)
    (hl : hasMatchO (litMatch "&lt;".data "<".data) y.data = false)
    (ha : hasMatchO (litMatch "&#39;".data "'".data) y.data = false)
    (hb : hasMatchO boldMatch y.data = false)
    (hi : hasMatchO italicMatch y.data = false)
    (hv : benignB videoMatch y.data = true)
    (hy : benignB youtubeMatch y.data = true) :
    applyPostTranslationFixes x y = y := by
  show String.mk (applyFixesL x.data y.data) = y
  unfold applyFixesL
  rw [findAllAux_nil urlMatchLen x.data hx]
  have hent : entityStage y.data = y.data := by
    simp only [entityStage, entityList, List.foldl_cons, List.foldl_nil]
    rw [scanReplace_id _ _ hq, scanReplace_id _ _ hg,
      scanReplace_id _ _ hl, scanReplace_id _ _ ha]
  rw [show boldStage y.data = y.data from scanReplace_id _ _ hb _, hent,
    show italicStage y.data = y.data from scanReplace_id _ _ hi _,
    show videoStage y.data = y.data from scanReplace_benign _ _ _ hv,
    show youtubeStage y.data = y.data from scanReplace_benign _ _ _ hy]
  rfl

/-- C5 witness on a concrete clean pair. -/
theorem repair_identity_on_clean_witness :
    applyPostTranslationFixes "hello" "bonjour" = "bonjour" :=
  repair_identity_on_clean "hello" "bonjour" (by decide) (by decide) (by decide)
    (by decide) (by decide) (by decide) (by decide) (by decide) (by decide)

/-! ## Claims about the batch translation adapter -/

/-- C1: evaluation exhibiting the write-back bug.  Eleven non-blank texts are
sent in two batches; the provider answers both batches correctly (it would
return the marked text for the eleventh input, second conjunct), yet the
returned list has the empty string at position ten, because the write-back
guard batchStart plus i less than the response length is never true for the
second batch. -/
theorem translateBatch_drops_second_batch :
    translateBatch true provT texts11 =
      Except.ok [['T','a'], ['T','b'], ['T','c'], ['T','d'], ['T','e'], ['T','f'],
        ['T','g'], ['T','h'], ['T','i'], ['T','j'], []] ∧
    provT [['k']] = Except.ok [['T','k']] :=
  ⟨rfl, rfl⟩

theorem processBatches_error (prov : List (List Char) → Except TrErr (List (List Char))) :
    ∀ fuel (rem : List (Nat × List Char)) bs acc,
      (∃ b ∈ chunks10 fuel rem, isBadResp prov (b.map Prod.snd) = true) →
      ∃ e, processBatches prov fuel rem bs acc = Except.error e := by
  intro fuel
  induction fuel with
  | zero => intro rem bs acc h; simp [chunks10] at h
  | succ m ih =>
    intro rem bs acc h
    cases rem with
    | nil => simp [chunks10] at h
    | cons x xs =>
      rw [chunks10] at h
      simp only [List.mem_cons] at h
      obtain ⟨b, hb, hbad⟩ := h
      have hunf : processBatches prov (m + 1) (x :: xs) bs acc =
          match prov (((x :: xs).take 10).map Prod.snd) with
          | Except.error e => Except.error e
          | Except.ok resp =>
            if resp.length ≠ (((x :: xs).take 10).map Prod.snd).length then
              Except.error TrErr.lengthMismatch
            else
              processBatches prov m ((x :: xs).drop 10) (bs + 10)
                (mapBack bs 0 (((x :: xs).take 10).map Prod.fst) resp acc) := rfl
      cases hp : prov (((x :: xs).take 10).map Prod.snd) with
      | error e => exact ⟨e, by rw [hunf, hp]⟩
      | ok resp =>
        by_cases hlen : resp.length ≠ (((x :: xs).take 10).map Prod.snd).length
        · refine ⟨TrErr.lengthMismatch, ?_⟩
          rw [hunf, hp]
          simp only [if_pos hlen]
        · rcases hb with rfl | hbtail
          · rw [isBadResp, hp] at hbad
            exact absurd (of_decide_eq_true hbad) hlen
          · obtain ⟨e, he⟩ := ih ((x :: xs).drop 10) (bs + 10)
              (mapBack bs 0 (((x :: xs).take 10).map Prod.fst) resp acc) ⟨b, hbtail, hbad⟩
            refine ⟨e, ?_⟩
            rw [hunf, hp]
            simp only [if_neg hlen]
            exact he

/-- C8: whenever the provider fails on one of the batches translateBatch
sends — an error return or a response whose length differs from the request —
translateBatch returns an error and no result list. -/
theorem translateBatch_all_or_nothing (langOk : Bool)
    (prov : List (List Char) → Except TrErr (List (List Char)))
    (texts : List (List Char))
    (h : ∃ b ∈ sentBatches texts, isBadResp prov b = true) :
    ∃ e, translateBatch langOk prov texts = Except.error e := by
  have hne : (filterPairs texts).length ≠ 0 := by
    intro hempty
    have hfp := List.length_eq_zero.mp hempty
    rw [sentBatches, hfp] at h
    simp [chunks10] at h
  have htexts : texts.length ≠ 0 := by
    intro h0
    rw [List.length_eq_zero.mp h0] at hne
    exact hne rfl
  rw [translateBatch]
  rw [if_neg htexts]
  simp only []
  rw [if_neg hne]
  cases langOk with
  | false => exact ⟨TrErr.badLanguage, rfl⟩
  | true =>
    simp only [Bool.not_true, Bool.false_eq_true, if_false]
    apply processBatches_error
    rw [sentBatches] at h
    simp only [List.mem_map] at h
    obtain ⟨b, ⟨c, hc, rfl⟩, hbad⟩ := h
    exact ⟨c, hc, hbad⟩

/-- C8 witness: a single text with an always-failing provider. -/
theorem translateBatch_all_or_nothing_witness :
    ∃ e, translateBatch true provFail [['a']] = Except.error e :=
  translateBatch_all_or_nothing true provFail [['a']] (by decide)

/-! ## Claims about unquoteYAML -/

/-- C10: unquoteYAML does not return normally on every input: on the
one-character inputs consisting of a lone double quote or a lone single
quote the Go slice bounds are 1 and 0 and the function panics (modelled as
none), and the panic is reachable from front-matter extraction through a
title line whose value is a lone quote. -/
theorem unquoteYAML_panics_on_lone_quote :
    unquoteYAML ['"'] = none ∧ unquoteYAML ['\''] = none ∧
    extractSegsP ["---".data, "title: \"".data] = none :=
  ⟨rfl, rfl, rfl⟩

/-! ## Claims about segment extraction -/

theorem classifyLines_length :
    ∀ (lines : List (List Char)) (head code : Bool) (idx : Nat) (segs : List Segment),
      classifyLines lines head code idx = some segs → segs.length = lines.length := by
  intro lines
  induction lines with
  | nil =>
    intro head code idx segs h
    rw [classifyLines] at h
    cases h
    rfl
  | cons ln rest ih =>
    intro head code idx segs h
    rw [classifyLines] at h
    split at h
    · exact absurd h (by simp)
    · rename_i seg h' c' hs
      split at h
      · exact absurd h (by simp)
      · rename_i segs' hr
        rw [Option.some.injEq] at h
        rw [← h]
        simp [ih h' c' (idx + 1) segs' hr]

/-- C7 counterexample: on the two-line document whose second line is a
front-matter description holding a lone single quote, extraction panics and
produces no segment list at all, so no input line gets a segment. -/
theorem extraction_panics_midway :
    extractSegsP ["---".data, "description: '".data] = none := rfl

/-- C7 (amended): whenever the extraction loop completes without panicking it
produces exactly one segment per input line, so the number of extracted
segments equals the number of input lines. -/
theorem extraction_segment_count (lines : List (List Char)) (segs : List Segment)
    (h : extractSegsP lines = some segs) : segs.length = lines.length :=
  classifyLines_length lines false false 0 segs h

/-- C7 witness on a one-line document. -/
theorem extraction_segment_count_witness :
    ([⟨0, "a".data, LineType.text, "a".data⟩] : List Segment).length
      = [ "a".data ].length :=
  extraction_segment_count ["a".data] [⟨0, "a".data, LineType.text, "a".data⟩] rfl

/-! ## Claims about the document reassembler -/

theorem splitOnChar_ne_nil (sep : Char) : ∀ l : List Char, splitOnChar sep l ≠ [] := by
  intro l
  induction l with
  | nil => simp [splitOnChar]
  | cons c cs ih =>
    rw [splitOnChar]
    by_cases hc : c = sep
    · simp [hc]
    · simp only [if_neg hc]
      cases hr : splitOnChar sep cs with
      | nil => exact absurd hr ih
      | cons h t => simp

theorem splitOnChar_no_sep : ∀ l : List Char, ']' ∉ l → splitOnChar ']' l = [l] := by
  intro l
  induction l with
  | nil => intro _; rfl
  | cons c cs ih =>
    intro h
    have hc : ¬(c = ']') := fun he => h (he ▸ List.mem_cons_self c cs)
    have hcs : ']' ∉ cs := fun hm => h (List.mem_cons_of_mem c hm)
    rw [splitOnChar]
    simp only [if_neg hc, ih hcs]

theorem splitOnChar_len_ge2 : ∀ l : List Char, ']' ∈ l → 1 < (splitOnChar ']' l).length := by
  intro l
  induction l with
  | nil => intro h; simp at h
  | cons c cs ih =>
    intro h
    rw [splitOnChar]
    by_cases hc : c = ']'
    · simp only [if_pos hc, List.length_cons]
      have := splitOnChar_ne_nil ']' cs
      have : 0 < (splitOnChar ']' cs).length := List.length_pos.mpr this
      omega
    · have hcs : ']' ∈ cs := by
        rcases List.mem_cons.mp h with he | hm
        · exact absurd he.symm hc
        · exact hm
      simp only [if_neg hc]
      cases hr : splitOnChar ']' cs with
      | nil => exact absurd hr (splitOnChar_ne_nil ']' cs)
      | cons x t =>
        have := ih hcs
        rw [hr] at this
        simpa using this

theorem splitOnChar_headD :
    ∀ l : List Char, (splitOnChar ']' l).headD [] = l.takeWhile (fun c => c ≠ ']') := by
  intro l
  induction l with
  | nil => rfl
  | cons c cs ih =>
    rw [splitOnChar]
    by_cases hc : c = ']'
    · simp only [if_pos hc, List.headD_cons]
      rw [List.takeWhile_cons, if_neg (by simp [hc])]
    · simp only [if_neg hc]
      cases hr : splitOnChar ']' cs with
      | nil => exact absurd hr (splitOnChar_ne_nil ']' cs)
      | cons x t =>
        rw [hr] at ih
        simp only [List.headD_cons] at ih ⊢
        rw [List.takeWhile_cons, if_pos (by simp [hc]), ih]

theorem splitOnChar_getD_one :
    ∀ l : List Char, ']' ∈ l → (splitOnChar ']' l).getD 1 [] = betweenRB l := by
  intro l
  induction l with
  | nil => intro h; simp at h
  | cons c cs ih =>
    intro h
    rw [splitOnChar]
    by_cases hc : c = ']'
    · simp only [if_pos hc]
      have hbet : betweenRB (c :: cs) = cs.takeWhile (fun c => c ≠ ']') := by
        rw [betweenRB, afterFirstRB]
        rw [List.dropWhile_cons]
        simp [hc]
      rw [hbet]
      have := splitOnChar_headD cs
      cases hr : splitOnChar ']' cs with
      | nil => exact absurd hr (splitOnChar_ne_nil ']' cs)
      | cons x t =>
        rw [hr] at this
        simp only [List.headD_cons] at this
        simpa using this
    · have hcs : ']' ∈ cs := by
        rcases List.mem_cons.mp h with he | hm
        · exact absurd he.symm hc
        · exact hm
      have hbet : betweenRB (c :: cs) = betweenRB cs := by
        rw [betweenRB, betweenRB, afterFirstRB, afterFirstRB]
        rw [List.dropWhile_cons]
        simp [hc]
      simp only [if_neg hc]
      cases hr : splitOnChar ']' cs with
      | nil => exact absurd hr (splitOnChar_ne_nil ']' cs)
      | cons x t =>
        rw [hr] at ih
        have := ih hcs
        simp only [List.getD_cons_succ] at this ⊢
        rw [hbet, ← this]

/-- C9 counterexample: the extractor classifies the line with two right
brackets as an alt segment, and the reassembler emits only the piece of the
original line between the first and second right bracket, not the entire
suffix after the first one: the suffix-based output differs from what the
code produces. -/
theorem alt_reassembly_truncates_suffix :
    extractSegsP ["![alt](u)]x".data] =
      some [⟨0, "alt".data, LineType.alt, "![alt](u)]x".data⟩] ∧
    emitSeg 0 ⟨0, "alt".data, LineType.alt, "![alt](u)]x".data⟩
      (fun _ => some "alt2".data) = Except.ok "![alt2](u)\n".data ∧
    "![alt2](u)\n".data ≠
      "![".data ++ applyFixesL "alt".data "alt2".data ++ ']' ::
        (afterFirstRB "![alt](u)]x".data ++ ['\n']) :=
  ⟨rfl, rfl, by decide⟩

/-- C9 (amended): for an alt segment with non-blank alt text and an available
translation, when the original line contains a right bracket the reassembler
emits the image opener, the repaired translation, a right bracket, the piece
of the original line strictly between the first and second right bracket
(the entire remaining suffix when there is exactly one), and a newline; when
the original line contains no right bracket it emits the original line
followed by a newline. -/
theorem alt_reassembly_spec (i : Nat) (seg : Segment) (tmap : Nat → Option (List Char))
    (tr : List Char) (h1 : seg.lineType = LineType.alt) (h2 : trimGo seg.text ≠ [])
    (h3 : tmap i = some tr) :
    emitSeg i seg tmap =
      Except.ok (if ']' ∈ seg.original then
          "![".data ++ applyFixesL seg.text tr ++ ']' :: (betweenRB seg.original ++ ['\n'])
        else seg.original ++ ['\n']) := by
  rw [emitSeg, h1]
  rw [if_neg (by simp : ¬(LineType.alt = LineType.literal))]
  rw [if_neg h2, h3]
  dsimp only
  by_cases hmem : ']' ∈ seg.original
  · rw [if_pos hmem]
    have hlen := splitOnChar_len_ge2 seg.original hmem
    rw [if_pos hlen]
    rw [splitOnChar_getD_one seg.original hmem]
  · rw [if_neg hmem, splitOnChar_no_sep seg.original hmem]
    simp

/-- C9 witness on a well-formed image line with a single right bracket. -/
theorem alt_reassembly_spec_witness :
    emitSeg 0 ⟨0, "alt".data, LineType.alt, "![alt](u)".data⟩
      (fun _ => some "alt2".data) =
      Except.ok (if ']' ∈ "![alt](u)".data then
          "![".data ++ applyFixesL "alt".data "alt2".data ++ ']' ::
            (betweenRB "![alt](u)".data ++ ['\n'])
        else "![alt](u)".data ++ ['\n']) :=
  alt_reassembly_spec 0 ⟨0, "alt".data, LineType.alt, "![alt](u)".data⟩
    (fun _ => some "alt2".data) "alt2".data rfl (by decide) rfl

/-! ## Lemmas for the literal round trip -/

theorem bodyStep_literal (ln : List Char) (idx : Nat) (head code : Bool)
    (seg : Segment) (h' c' : Bool)
    (hs : bodyStep ln idx head code = some (seg, h', c'))
    (hl : seg.lineType = LineType.literal) :
    seg.original = ln ++ ['\n'] ∧ seg.text = [] := by
  simp only [bodyStep] at hs
  split_ifs at hs <;>
    (simp only [Option.some.injEq, Prod.mk.injEq] at hs
     obtain ⟨hseg, -⟩ := hs
     subst hseg
     first
       | exact ⟨rfl, rfl⟩
       | simp [litSeg] at hl)

theorem frontStep_literal (ln : List Char) (idx : Nat) (head code : Bool)
    (seg : Segment) (h' c' : Bool)
    (hs : frontStep ln idx head code = some (seg, h', c'))
    (hl : seg.lineType = LineType.literal) :
    seg.original = ln ++ ['\n'] ∧ seg.text = [] := by
  rw [frontStep] at hs
  split at hs
  · rename_i key value hsplit
    split_ifs at hs
    · split at hs
      · exact absurd hs (by simp)
      · simp only [Option.some.injEq, Prod.mk.injEq] at hs
        obtain ⟨hseg, -⟩ := hs
        subst hseg
        simp at hl
    · split at hs
      · exact absurd hs (by simp)
      · simp only [Option.some.injEq, Prod.mk.injEq] at hs
        obtain ⟨hseg, -⟩ := hs
        subst hseg
        simp at hl
    · simp only [Option.some.injEq, Prod.mk.injEq] at hs
      obtain ⟨hseg, -⟩ := hs
      subst hseg
      exact ⟨rfl, rfl⟩
  · simp only [Option.some.injEq, Prod.mk.injEq] at hs
    obtain ⟨hseg, -⟩ := hs
    subst hseg
    exact ⟨rfl, rfl⟩

theorem classifyStep_literal (ln : List Char) (head code : Bool) (idx : Nat)
    (seg : Segment) (h' c' : Bool)
    (hs : classifyStep ln head code idx = some (seg, h', c'))
    (hl : seg.lineType = LineType.literal) :
    seg.original = ln ++ ['\n'] ∧ seg.text = [] := by
  rw [classifyStep] at hs
  split_ifs at hs <;>
    first
      | exact bodyStep_literal ln idx head code seg h' c' hs hl
      | exact frontStep_literal ln idx head code seg h' c' hs hl
      | (simp only [Option.some.injEq, Prod.mk.injEq] at hs
         obtain ⟨hseg, -⟩ := hs
         subst hseg
         exact ⟨rfl, rfl⟩)

theorem classifyLines_literal :
    ∀ (lines : List (List Char)) (head code : Bool) (idx : Nat) (segs : List Segment),
      classifyLines lines head code idx = some segs →
      (∀ s ∈ segs, s.lineType = LineType.literal) →
      (segs.map fun s => s.original) = (lines.map fun ln => ln ++ ['\n']) ∧
      ∀ s ∈ segs, s.text = [] := by
  intro lines
  induction lines with
  | nil =>
    intro head code idx segs h _
    rw [classifyLines, Option.some.injEq] at h
    rw [← h]
    exact ⟨rfl, by simp⟩
  | cons ln rest ih =>
    intro head code idx segs h hall
    rw [classifyLines] at h
    split at h
    · exact absurd h (by simp)
    · rename_i seg h' c' hs
      split at h
      · exact absurd h (by simp)
      · rename_i segs' hr
        rw [Option.some.injEq] at h
        subst h
        have hseg := hall seg (List.mem_cons_self seg segs')
        have hrest : ∀ s ∈ segs', s.lineType = LineType.literal :=
          fun s hsm => hall s (List.mem_cons_of_mem seg hsm)
        obtain ⟨ho, ht⟩ := classifyStep_literal ln head code idx seg h' c' hs hseg
        obtain ⟨ihm, iht⟩ := ih h' c' (idx + 1) segs' hr hrest
        refine ⟨by simp [ho, ihm], ?_⟩
        intro s hsm
        rcases List.mem_cons.mp hsm with rfl | hm
        · exact ht
        · exact iht s hm

theorem collectTexts_nil : ∀ (segs : List Segment) (i : Nat),
    (∀ s ∈ segs, s.text = []) → collectTexts segs i = [] := by
  intro segs
  induction segs with
  | nil => intro i _; rfl
  | cons s rest ih =>
    intro i h
    have hs := h s (List.mem_cons_self s rest)
    rw [collectTexts, hs]
    simp only [show decide (trimGo ([] : List Char) ≠ []) = false from rfl,
      Bool.false_eq_true, if_false]
    exact ih (i + 1) fun t ht => h t (List.mem_cons_of_mem s ht)

theorem buildSegs_literal : ∀ (segs : List Segment) (tmap : Nat → Option (List Char))
    (i : Nat), (∀ s ∈ segs, s.lineType = LineType.literal) →
    buildSegs tmap segs i = Except.ok (concatL (segs.map fun s => s.original)) := by
  intro segs
  induction segs with
  | nil => intro tmap i _; rfl
  | cons s rest ih =>
    intro tmap i h
    have hs := h s (List.mem_cons_self s rest)
    have hemit : emitSeg i s tmap = Except.ok s.original := by
      rw [emitSeg, if_pos hs]
    rw [buildSegs, hemit, ih tmap (i + 1) fun t ht => h t (List.mem_cons_of_mem s ht)]
    rfl

theorem dropCR_id (cur : List Char) (h : '\r' ∉ cur) : dropCR cur.reverse = cur.reverse := by
  cases cur with
  | nil => rfl
  | cons c cs =>
    have hlast : (c :: cs).reverse.getLast? = some c := by
      rw [List.reverse_cons]
      exact List.getLast?_concat _
    rw [dropCR, hlast]
    rw [if_neg fun he => h (by
      have : c = '\r' := by simpa using he
      rw [this]
      exact List.mem_cons_self _ _)]

theorem splitAux_join : ∀ l cur : List Char, l.getLast? = some '\n' → '\r' ∉ cur →
    '\r' ∉ l → concatL ((splitAux cur l).map fun x => x ++ ['\n']) = cur.reverse ++ l := by
  intro l
  induction l with
  | nil => intro cur h _ _; simp at h
  | cons c cs ih =>
    intro cur hlast hcur hl
    have hl' : '\r' ∉ cs := fun hm => hl (List.mem_cons_of_mem _ hm)
    by_cases hc : c = '\n'
    · subst hc
      rw [splitAux, if_pos rfl]
      by_cases hcs : cs.isEmpty
      · have hnil : cs = [] := by simpa [List.isEmpty_iff] using hcs
        subst hnil
        rw [if_pos hcs]
        simp [concatL, dropCR_id cur hcur]
      · simp only [if_neg hcs]
        have hcsne : cs ≠ [] := by simpa [List.isEmpty_iff] using hcs
        have hlast' : cs.getLast? = some '\n' := by
          cases cs with
          | nil => exact absurd rfl hcsne
          | cons d ds => rw [← hlast]; exact List.getLast?_cons_cons.symm
        rw [List.map_cons]
        show (dropCR cur.reverse ++ ['\n']) ++
          concatL ((splitAux [] cs).map fun x => x ++ ['\n']) = _
        rw [dropCR_id cur hcur, ih [] hlast' (by simp) hl']
        simp
    · rw [splitAux, if_neg hc]
      have hcsne : cs ≠ [] := by
        intro hnil
        rw [hnil] at hlast
        have : c = '\n' := by simpa [List.getLast?] using hlast
        exact hc this
      have hlast' : cs.getLast? = some '\n' := by
        cases cs with
        | nil => exact absurd rfl hcsne
        | cons d ds => rw [← hlast]; exact List.getLast?_cons_cons.symm
      have hcur' : '\r' ∉ c :: cur := by
        intro hm
        rcases List.mem_cons.mp hm with he | hm'
        · exact hl (by rw [he]; exact List.mem_cons_self _ _)
        · exact hcur hm'
      rw [ih (c :: cur) hlast' hcur' hl']
      simp

theorem doXlateCore_some (langOk : Bool)
    (prov : List (List Char) → Except TrErr (List (List Char)))
    (lines : List (List Char)) (segs : List Segment)
    (h : extractSegsP lines = some segs) :
    doXlateCore langOk prov lines = some (doXlateSegs langOk prov segs) := by
  rw [doXlateCore, h]

/-! ## Claims about the whole document pipeline -/

/-- C6 counterexample: the one-line document consisting of the bare
front-matter delimiter with no trailing newline is entirely literal, yet the
reassembled output carries a trailing newline the input lacks, so the round
trip is not byte-for-byte. -/
theorem roundtrip_adds_final_newline :
    extractSegsP (splitLinesGo "---".data)
      = some [⟨0, [], LineType.literal, "---\n".data⟩] ∧
    doXlateCoreStr true provT "---" = some (Except.ok "---\n".data) ∧
    "---\n".data ≠ "---".data :=
  ⟨rfl, rfl, by decide⟩

/-- C6 (amended): for every input document that ends with a newline, contains
no carriage return, and whose extraction completes with every segment
classified literal, the reassembled output equals the input byte-for-byte,
for any provider. -/
theorem roundtrip_literal_docs (input : String) (segs : List Segment) (langOk : Bool)
    (prov : List (List Char) → Except TrErr (List (List Char)))
    (hseg : extractSegsP (splitLinesGo input.data) = some segs)
    (hlit : ∀ s ∈ segs, s.lineType = LineType.literal)
    (hnl : input.data.getLast? = some '\n')
    (hcr : '\r' ∉ input.data) :
    doXlateCoreStr langOk prov input = some (Except.ok input.data) := by
  obtain ⟨horig, htext⟩ :=
    classifyLines_literal (splitLinesGo input.data) false false 0 segs hseg hlit
  have hcoll : collectTexts segs 0 = [] := collectTexts_nil segs 0 htext
  have hinne : input.data ≠ [] := by
    intro hnil
    rw [hnil] at hnl
    simp at hnl
  have hsplit : splitLinesGo input.data = splitAux [] input.data := by
    cases hi : input.data with
    | nil => exact absurd hi hinne
    | cons c cs => rfl
  rw [doXlateCoreStr, doXlateCore_some langOk prov _ segs hseg]
  rw [doXlateSegs, hcoll]
  simp only [List.map_nil, List.length_nil, lt_irrefl, if_false]
  rw [buildSegs_literal segs (tmapOf [] []) 0 hlit, horig, hsplit]
  rw [splitAux_join input.data [] hnl (by simp) hcr]
  rfl

/-- C6 witness on the newline-terminated one-line delimiter document. -/
theorem roundtrip_literal_docs_witness :
    doXlateCoreStr true provT "---\n" = some (Except.ok "---\n".data) :=
  roundtrip_literal_docs "---\n" [⟨0, [], LineType.literal, "---\n".data⟩] true provT
    rfl (by decide) (by decide) (by decide)

/-- C2 counterexample: on a one-line translatable document with a failing
provider, doXlate returns the batch failure, yet an output file exists —
os.Create already created it, empty — so it is not the case that no output
file exists after the failure. -/
theorem doXlate_failure_leaves_empty_file :
    (doXlateFS true provFail "hello").1
      = some (Except.error (XErr.batchFailed TrErr.provider)) ∧
    (doXlateFS true provFail "hello").2 ≠ none :=
  ⟨rfl, by decide⟩

/-- C2 (amended): whenever doXlate returns an error, the output file exists
but is empty: the file is created (truncated) on entry and translated content
is written only after the entire document has been processed, so no partial
translated content is ever on disk. -/
theorem doXlate_error_no_partial_content (langOk : Bool)
    (prov : List (List Char) → Except TrErr (List (List Char)))
    (input : String) (e : XErr)
    (h : (doXlateFS langOk prov input).1 = some (Except.error e)) :
    (doXlateFS langOk prov input).2 = some [] := by
  cases hx : doXlateCoreStr langOk prov input with
  | none =>
    rw [doXlateFS, hx] at h
    exact absurd h (by simp)
  | some r =>
    cases r with
    | error e' => rw [doXlateFS, hx]
    | ok out =>
      rw [doXlateFS, hx] at h
      exact absurd h (by simp)

/-- C2 witness at the failing one-line document. -/
theorem doXlate_error_no_partial_content_witness :
    (doXlateFS true provFail "hello").2 = some [] :=
  doXlate_error_no_partial_content true provFail "hello"
    (XErr.batchFailed TrErr.provider) rfl

end Translator

